import Mathlib

/-!
Shallow embedding of the genetic-algorithm TSP engine
(`titoeb/genetic-algorithm-tsp`).

Conventions of the embedding:
* Rust `f64` / `f32` values are modelled as rationals `ℚ` (the claims never
  depend on floating-point rounding and no `NaN` is ever produced by the code
  on finite inputs, so `partial_cmp` is total here).
* Rust `Vec<T>` is modelled as `List T`; `usize` as `Nat`.
* A Rust panic (e.g. `Vec::remove` out of bounds, `usize` underflow,
  `Option::unwrap` on `None`) is modelled by returning `none` from an
  `Option`-valued function: a panicking call returns no value.
* A call to the thread-local RNG is modelled by an explicit extra `draw`
  argument: `rand::thread_rng().gen_range(lo..hi)` becomes
  `get_random_elem_from_range lo hi draw`, which for a non-empty range maps
  the draw into `[lo, hi)` (every value of the range is attained for a
  suitable draw) and, as in `utils.rs`, returns `range.start` when the range
  is empty.
* The iteration of a `HashSet` is modelled by a `List`; building the
  `HashSet` (`route_vec_to_xx_hashset`) is modelled by `List.dedup`, which
  collapses structurally equal routes exactly as the set does.
-/

namespace GenTsp

/-- `Route` from `src/route.rs`: the ordered visiting sequence of a tour. -/
structure Route where
  indexes : List Nat
deriving DecidableEq, Repr

/-- `DistanceMat` from `src/distance_mat.rs`: a square table of distances. -/
structure DistanceMat where
  distances : List (List ℚ)
deriving DecidableEq, Repr

/-- Rust indexing `self.distances[i][j]` (total via `getD`; all claims keep
indices in bounds). -/
def dist (d : DistanceMat) (i j : Nat) : ℚ :=
  (d.distances.getD i []).getD j 0

/-- `DistanceMat::n_units`. -/
def n_units (d : DistanceMat) : Nat :=
  d.distances.length

/-- The fold body of `DistanceMat::compute_cost`: add `d[last][current]`
once a previous point exists, and remember the current point. -/
def cost_step (d : DistanceMat) (acc : ℚ × Option Nat) (current : Nat) :
    ℚ × Option Nat :=
  match acc.2 with
  | some last => (acc.1 + dist d last current, some current)
  | none => (acc.1, some current)

/-- `DistanceMat::compute_cost` from `src/distance_mat.rs`: a fold over the
index sequence starting from the closing edge `d[seq[k-1]][seq[0]]`, adding
`d[last][current]` for every consecutive pair. -/
def compute_cost (d : DistanceMat) (indexes : List Nat) : ℚ :=
  (indexes.foldl (cost_step d)
    (dist d (indexes.getD (indexes.length - 1) 0) (indexes.getD 0 0),
      (none : Option Nat))).1

/-- `Route::fitness` from `src/route.rs`: the negated tour cost. -/
def fitness (r : Route) (d : DistanceMat) : ℚ :=
  -(compute_cost d r.indexes)

/-- `Subsequence` from `src/subsequence.rs`. -/
structure Subsequence where
  start_index : Nat
  length : Nat
deriving DecidableEq, Repr

/-- `get_random_elem_from_range` from `src/utils.rs`, for `Nat` ranges
`lo..hi` (half-open): a non-empty range yields a member of `[lo, hi)`
selected by the draw, an empty range yields `range.start`. -/
def get_random_elem_from_range (lo hi draw : Nat) : Nat :=
  if lo < hi then lo + draw % (hi - lo) else lo

/-- `Subsequence::random_subsequence` from `src/subsequence.rs`.
`len_sequence - 2` is `Nat`-truncated; the real code underflows (panics) for
`len_sequence < 2`, and the claims about this function assume
`len_sequence ≥ 3`. -/
def random_subsequence (len_sequence : Nat) (d1 d2 : Nat) : Subsequence :=
  let start_index := get_random_elem_from_range 0 (len_sequence - 2) d1
  { start_index := start_index,
    length := get_random_elem_from_range 1 (len_sequence - start_index - 1) d2 }

/-- `Subsequence::get_values_in`: the slice
`sequence[start_index..start_index+length]` when in bounds. -/
def get_values_in (s : Subsequence) (sequence : List Nat) : Option (List Nat) :=
  if s.start_index + s.length ≤ sequence.length then
    some ((sequence.drop s.start_index).take s.length)
  else none

/-- `Subsequence::get_values_before`: the slice `sequence[..start_index]`
when `start_index` is in bounds (the length of the subsequence is not
checked by the source here). -/
def get_values_before (s : Subsequence) (sequence : List Nat) : Option (List Nat) :=
  if s.start_index ≤ sequence.length then
    some (sequence.take s.start_index)
  else none

/-- `Subsequence::get_values_after`: the slice
`sequence[start_index+length..]` when in bounds. -/
def get_values_after (s : Subsequence) (sequence : List Nat) : Option (List Nat) :=
  if s.start_index + s.length ≤ sequence.length then
    some (sequence.drop (s.start_index + s.length))
  else none

/-- `is_in` from `src/utils.rs`. -/
def is_in (value : Nat) : List Nat → Bool
  | [] => false
  | elem :: rest => if value = elem then true else is_in value rest

/-- `change_order` from `src/utils.rs`: move `data[move_idx]` in front of the
element at `put_before_idx` (with the index-shift correction for
`move_idx < put_before_idx`). -/
def change_order (data : List Nat) (put_before_idx move_idx : Nat) : List Nat :=
  if put_before_idx = move_idx then data
  else
    let move_item := data.getD move_idx 0
    let new_data := data.eraseIdx move_idx
    let reset_index : Nat := if move_idx < put_before_idx then 1 else 0
    new_data.insertIdx (max put_before_idx reset_index - reset_index) move_item

/-- `remove_elem` from `src/utils.rs`; `Vec::remove` panics (here: `none`)
when the index is out of bounds. -/
def remove_elem (data : List Nat) (elem_idx : Nat) : Option (List Nat) :=
  if elem_idx < data.length then some (data.eraseIdx elem_idx) else none

/-- `SliceRandom::choose`: `none` exactly on the empty slice, otherwise an
element selected by the draw (every element is attained for a suitable
draw). -/
def choose (l : List Nat) (draw : Nat) : Option Nat :=
  if l.length = 0 then none else some (l.getD (draw % l.length) 0)

/-- `ordered_crossover` from `src/utils.rs`.  The source `unwrap`s the three
subsequence accessors; an out-of-bounds subsequence therefore panics
(`none`). -/
def ordered_crossover (parent_a parent_b : Route) (subsequence : Subsequence) :
    Option Route :=
  match get_values_in subsequence parent_a.indexes,
      get_values_in subsequence parent_b.indexes,
      get_values_after subsequence parent_b.indexes,
      get_values_before subsequence parent_b.indexes with
  | some mapped_selection, some b_in, some b_after, some b_before =>
    some ⟨(b_in.filter fun e => !is_in e mapped_selection) ++
      mapped_selection ++
      (b_after.filter fun e => !is_in e mapped_selection) ++
      (b_before.filter fun e => !is_in e mapped_selection)⟩
  | _, _, _, _ => none

/-- `Route::mutate` from `src/route.rs`.  `draw` is the uniform sample from
`[0,1)` compared against `prob`; `d1` drives the `put_before_idx` sample and
`choice` the `choose` call.  The two `remove_elem` calls panic (`none`) on
routes of length ≤ 2 whenever the mutation branch is taken; `len - 1`
underflows for the empty route. -/
def mutate (r : Route) (prob draw : ℚ) (d1 choice : Nat) : Option Route :=
  if draw > prob then some r
  else if r.indexes.length = 0 then none
  else
    match remove_elem (List.range (r.indexes.length - 1))
        (get_random_elem_from_range 0 (r.indexes.length - 1) d1) with
    | none => none
    | some once =>
      match remove_elem once
          (max (get_random_elem_from_range 0 (r.indexes.length - 1) d1) 1 - 1) with
      | none => none
      | some candidates =>
        some ⟨change_order r.indexes
          (get_random_elem_from_range 0 (r.indexes.length - 1) d1)
          ((choose candidates choice).getD
            ((get_random_elem_from_range 0 (r.indexes.length - 1) d1 + 1)
              % r.indexes.length))⟩

/-- `Route::crossover` from `src/route.rs`: ordered crossover on a random
subsequence of `self`'s length.  For routes of length < 2 the
`len_sequence - 2` subtraction in `random_subsequence` underflows and the
call panics (`none`). -/
def crossover (a b : Route) (d1 d2 : Nat) : Option Route :=
  if a.indexes.length < 2 then none
  else ordered_crossover a b (random_subsequence a.indexes.length d1 d2)

/-- `argsort` from `src/utils.rs`: the indices `0..len` sorted by the
comparator `reverse_ordering(data[a].partial_cmp(data[b]))`, i.e. index `a`
may precede `b` iff `data[b] ≤ data[a]` (descending).  Rust's `sort_by` is a
stable sort; it is embedded as the stable `List.insertionSort` on the same
total preorder. -/
def argsort (data : List ℚ) : List Nat :=
  List.insertionSort (fun a_idx b_idx => data.getD b_idx 0 ≤ data.getD a_idx 0)
    (List.range data.length)

/-- `Population::fitnesses` from `src/gen_traits.rs`. -/
def fitnesses (pop : List Route) (d : DistanceMat) : List (ℚ × Route) :=
  pop.map fun r => (fitness r d, r)

/-- `Population::get_n_fittest` from `src/gen_traits.rs`: `argsort` the
fitness values, take `n`, and index back into the fitness/route pairs. -/
def get_n_fittest (pop : List Route) (n : Nat) (d : DistanceMat) : List Route :=
  (((argsort ((fitnesses pop d).map Prod.fst)).take n).map
    fun idx => ((fitnesses pop d).getD idx (0, ⟨[]⟩)).2)

/-- `Routes::get_fittest_population` from `src/routes.rs`: `get_n_fittest`
collected back into the route `HashSet` (modelled by `dedup`). -/
def get_fittest_population (pop : List Route) (n : Nat) (d : DistanceMat) :
    List Route :=
  (get_n_fittest pop n d).dedup

/-- The random draws consumed when producing one child
(`main.crossover(other).mutate(prob)`): two for the crossover subsequence,
one uniform sample and two index draws for the mutation. -/
structure Draws where
  cd1 : Nat
  cd2 : Nat
  mdraw : ℚ
  md1 : Nat
  mchoice : Nat

/-- One offspring: `main_solution.crossover(solution).mutate(mutate_prob)`
from `Population::evolve_individuals`. -/
def make_child (main other : Route) (prob : ℚ) (dr : Draws) : Option Route :=
  (crossover main other dr.cd1 dr.cd2).bind fun c =>
    mutate c prob dr.mdraw dr.md1 dr.mchoice

/-- The ordered index pairs `(idx, solution_index)` with
`solution_index ≠ idx` iterated by `Population::evolve_individuals`. -/
def pairs (m : Nat) : List (Nat × Nat) :=
  (List.range m).flatMap fun i =>
    ((List.range m).filter fun j => decide (j ≠ i)).map fun j => (i, j)

/-- `Population::evolve_individuals` from `src/gen_traits.rs`: all crossed
and mutated children of distinct ordered pairs, chained with the original
individuals (`.chain(self.iter().cloned())`).  `O i j` supplies the draws
for the pair `(i, j)`; `none` if any child computation panics. -/
def evolve_individuals (pop : List Route) (prob : ℚ) (O : Nat → Nat → Draws) :
    Option (List Route) :=
  ((pairs pop.length).mapM fun ij =>
      make_child (pop.getD ij.1 ⟨[]⟩) (pop.getD ij.2 ⟨[]⟩) prob (O ij.1 ij.2)).map
    fun children => children ++ pop

/-- `Routes::evolve` from `src/routes.rs`: the evolved individuals collected
into the route `HashSet` (modelled by `dedup`). -/
def evolve (pop : List Route) (prob : ℚ) (O : Nat → Nat → Draws) :
    Option (List Route) :=
  (evolve_individuals pop prob O).map List.dedup

/-- The iteration count of each parallel worker's fold in
`evolve_population` (`src/routes.rs`, line 329):
`(0..((n_generations / n_jobs) + 1))`. -/
def worker_generation_count (n_generations n_jobs : Nat) : Nat :=
  n_generations / n_jobs + 1

/-- `evolve_population` from `src/routes.rs`.  `n_jobs = 0`: fold
`n_generations` times `evolve(0.5)` then
`get_fittest_population(size_generation)`.  `n_jobs > 0`: every worker `w`
folds `worker_generation_count` times on its own clone of the initial
population, reduces to its `get_n_fittest` elite list, and the workers'
lists are concatenated into one deduplicated population.  `O w g i j`
supplies the draws of worker `w`, generation `g`, pair `(i, j)`. -/
def evolve_population (initial : List Route) (n_generations size_generation : Nat)
    (d : DistanceMat) (n_jobs : Nat) (O : Nat → Nat → Nat → Nat → Draws) :
    Option (List Route) :=
  if n_jobs = 0 then
    (List.range n_generations).foldl
      (fun acc g => acc.bind fun pop =>
        (evolve pop (1 / 2) (O 0 g)).map fun ev =>
          get_fittest_population ev size_generation d)
      (some initial)
  else
    ((List.range n_jobs).mapM fun w =>
        ((List.range (worker_generation_count n_generations n_jobs)).foldl
          (fun acc g => acc.bind fun pop =>
            (evolve pop (1 / 2) (O w g)).map fun ev =>
              get_fittest_population ev size_generation d)
          (some initial)).map
          fun pop => get_n_fittest pop size_generation d).map
      fun results => results.flatten.dedup

/-- Modelled from the spec (§4.5): the claimed per-worker generation count
`⌈n_generations / n_jobs⌉`, to be compared with the source's
`worker_generation_count`. -/
def ceil_div (a b : Nat) : Nat :=
  (a + b - 1) / b

/-! ### Helper lemmas about the embedded primitives -/

open List

theorem is_in_iff (v : Nat) (l : List Nat) : is_in v l = true ↔ v ∈ l := by
  induction l with
  | nil => simp [is_in]
  | cons e rest ih => by_cases h : v = e <;> simp [is_in, h, ih]

theorem insertIdx_perm_cons (a : Nat) :
    ∀ (l : List Nat) (k : Nat), k ≤ l.length → l.insertIdx k a ~ a :: l := by
  intro l
  induction l with
  | nil =>
    intro k hk
    have : k = 0 := Nat.le_zero.mp hk
    subst this
    simp [List.insertIdx_zero]
  | cons x xs ih =>
    intro k hk
    cases k with
    | zero => simp [List.insertIdx_zero]
    | succ k =>
      rw [List.insertIdx_succ_cons]
      exact ((ih k (by simpa using hk)).cons x).trans (List.Perm.swap a x xs)

theorem perm_getD_cons_eraseIdx :
    ∀ (l : List Nat) (m : Nat), m < l.length → l ~ l.getD m 0 :: l.eraseIdx m := by
  intro l
  induction l with
  | nil => intro m hm; simp at hm
  | cons x xs ih =>
    intro m hm
    cases m with
    | zero => simp
    | succ m =>
      have hm' : m < xs.length := by simpa using hm
      have step := (ih m hm').cons x
      simpa using step.trans (List.Perm.swap _ x _)

theorem change_order_perm (data : List Nat) (p m : Nat) (hm : m < data.length)
    (hp : p < data.length) : change_order data p m ~ data := by
  unfold change_order
  by_cases h : p = m
  · simp [h]
  · rw [if_neg h]
    have hlen : (data.eraseIdx m).length = data.length - 1 := by
      simp [List.length_eraseIdx, hm]
    have hk : max p (if m < p then 1 else 0) - (if m < p then 1 else 0)
        ≤ (data.eraseIdx m).length := by
      rw [hlen]
      by_cases hmp : m < p <;> simp [hmp] <;> omega
    exact (insertIdx_perm_cons _ _ _ hk).trans (perm_getD_cons_eraseIdx data m hm).symm

theorem exists_fitness_max (d : DistanceMat) :
    ∀ (l : List Route), l ≠ [] → ∃ r ∈ l, ∀ x ∈ l, fitness x d ≤ fitness r d := by
  intro l
  induction l with
  | nil => simp
  | cons x xs ih =>
    intro _
    by_cases hxs : xs = []
    · subst hxs
      exact ⟨x, by simp, by simp⟩
    · obtain ⟨r, hr, hmax⟩ := ih hxs
      rcases le_total (fitness r d) (fitness x d) with hc | hc
      · refine ⟨x, by simp, ?_⟩
        intro y hy
        rcases List.mem_cons.mp hy with h | h
        · exact h ▸ le_refl _
        · exact (hmax y h).trans hc
      · refine ⟨r, by simp [hr], ?_⟩
        intro y hy
        rcases List.mem_cons.mp hy with h | h
        · exact h ▸ hc
        · exact hmax y h

/-! ### C7: degenerate-population evolve -/

/-- C7 (corrected): on a population of size 0 or 1, `evolve` forms zero
crossover pairs (empty offspring set), but the returned population is not
empty for size 1 — `evolve_individuals` chains the original members, so the
population of size 1 comes back unchanged. -/
theorem c7_evolve_degenerate (pop : List Route) (prob : ℚ) (O : Nat → Nat → Draws)
    (h : pop.length ≤ 1) :
    pairs pop.length = [] ∧ evolve_individuals pop prob O = some pop ∧
      evolve pop prob O = some pop := by
  rcases pop with _ | ⟨r, _ | ⟨r2, rest⟩⟩
  · exact ⟨rfl, rfl, rfl⟩
  · refine ⟨rfl, rfl, ?_⟩
    show (evolve_individuals [r] prob O).map List.dedup = some [r]
    rw [show evolve_individuals [r] prob O = some [r] from rfl]
    simp [List.dedup_cons_of_not_mem]
  · simp at h

/-- Witness for C7 at a concrete one-member population. -/
theorem c7_witness :
    pairs ([Route.mk [0, 1, 2]] : List Route).length = [] ∧
      evolve_individuals [Route.mk [0, 1, 2]] (1 / 2) (fun _ _ => ⟨0, 0, 1, 0, 0⟩)
        = some [Route.mk [0, 1, 2]] ∧
      evolve [Route.mk [0, 1, 2]] (1 / 2) (fun _ _ => ⟨0, 0, 1, 0, 0⟩)
        = some [Route.mk [0, 1, 2]] :=
  c7_evolve_degenerate [Route.mk [0, 1, 2]] (1 / 2) (fun _ _ => ⟨0, 0, 1, 0, 0⟩)
    (by decide)

/-- Counterexample to C7 as stated: evolving the one-member population
`{[0,1,2]}` returns a population that still contains that member, not an
empty population. -/
theorem c7_counterexample :
    evolve [Route.mk [0, 1, 2]] (1 / 2) (fun _ _ => ⟨0, 0, 1, 0, 0⟩)
        = some [Route.mk [0, 1, 2]] ∧
      evolve [Route.mk [0, 1, 2]] (1 / 2) (fun _ _ => ⟨0, 0, 1, 0, 0⟩)
        ≠ some ([] : List Route) := by
  constructor
  · rfl
  · decide

/-! ### C9: subsequence accessor out-of-range signalling -/

/-- C9 (corrected): `get_values_in` and `get_values_after` return `none`
exactly when `start_index + length` exceeds the sequence length, but
`get_values_before` returns `none` exactly when `start_index` alone exceeds
the sequence length (the source does not check the subsequence length
there); otherwise each returns the slice strictly inside, strictly before,
strictly after the range. -/
theorem c9_accessor_bounds (s : Subsequence) (seq : List Nat) :
    (get_values_in s seq = none ↔ seq.length < s.start_index + s.length)
    ∧ (get_values_after s seq = none ↔ seq.length < s.start_index + s.length)
    ∧ (get_values_before s seq = none ↔ seq.length < s.start_index)
    ∧ (∀ l, get_values_in s seq = some l →
        l.length = s.length ∧ ∀ i < s.length, l.getD i 0 = seq.getD (s.start_index + i) 0)
    ∧ (∀ l, get_values_before s seq = some l →
        l.length = s.start_index ∧ ∀ i < s.start_index, l.getD i 0 = seq.getD i 0)
    ∧ (∀ l, get_values_after s seq = some l →
        l.length = seq.length - (s.start_index + s.length)
        ∧ ∀ i < l.length, l.getD i 0 = seq.getD (s.start_index + s.length + i) 0) := by
  refine ⟨?_, ?_, ?_, ?_, ?_, ?_⟩
  · unfold get_values_in
    split <;> simp <;> omega
  · unfold get_values_after
    split <;> simp <;> omega
  · unfold get_values_before
    split <;> simp <;> omega
  · intro l hl
    unfold get_values_in at hl
    split at hl
    · rename_i hb
      obtain rfl : (seq.drop s.start_index).take s.length = l := by
        simpa using hl
      constructor
      · simp
        omega
      · intro i hi
        have h1 : i < ((seq.drop s.start_index).take s.length).length := by
          simp
          omega
        have h2 : s.start_index + i < seq.length := by omega
        rw [List.getD_eq_getElem?_getD, List.getD_eq_getElem?_getD,
          List.getElem?_eq_getElem h1, List.getElem?_eq_getElem h2]
        simp
    · simp at hl
  · intro l hl
    unfold get_values_before at hl
    split at hl
    · rename_i hb
      obtain rfl : seq.take s.start_index = l := by simpa using hl
      constructor
      · simp
        omega
      · intro i hi
        have h1 : i < (seq.take s.start_index).length := by
          simp
          omega
        have h2 : i < seq.length := by omega
        rw [List.getD_eq_getElem?_getD, List.getD_eq_getElem?_getD,
          List.getElem?_eq_getElem h1, List.getElem?_eq_getElem h2]
        simp
    · simp at hl
  · intro l hl
    unfold get_values_after at hl
    split at hl
    · rename_i hb
      obtain rfl : seq.drop (s.start_index + s.length) = l := by simpa using hl
      constructor
      · simp
      · intro i hi
        have h1 : i < (seq.drop (s.start_index + s.length)).length := hi
        have h2 : s.start_index + s.length + i < seq.length := by
          simp at h1
          omega
        rw [List.getD_eq_getElem?_getD, List.getD_eq_getElem?_getD,
          List.getElem?_eq_getElem h1, List.getElem?_eq_getElem h2]
        simp
    · simp at hl

/-- Witness for C9 at a concrete in-bounds slice. -/
theorem c9_witness : ([1, 2] : List Nat).length = 2 :=
  ((c9_accessor_bounds ⟨1, 2⟩ (List.range 4)).2.2.2.1 [1, 2] (by decide)).1

/-- Counterexample to C9 as stated: for `start_index = 5`, `length = 12`
over a sequence of length 10, `start_index + length` exceeds the sequence
length yet `get_values_before` still returns `some` (the slice before the
start index), not `none`. -/
theorem c9_counterexample :
    get_values_before ⟨5, 12⟩ (List.range 10) = some [0, 1, 2, 3, 4]
      ∧ (List.range 10).length < 5 + 12 := by
  constructor <;> decide

/-! ### C8: random subsequence ranges -/

/-- Bounds of the sampled subsequence for `len_sequence ≥ 3`. -/
theorem rs_bounds (len_sequence d1 d2 : Nat) (h3 : 3 ≤ len_sequence) :
    (random_subsequence len_sequence d1 d2).start_index < len_sequence - 2
    ∧ 1 ≤ (random_subsequence len_sequence d1 d2).length
    ∧ (random_subsequence len_sequence d1 d2).length
        < len_sequence - (random_subsequence len_sequence d1 d2).start_index - 1
    ∧ (random_subsequence len_sequence d1 d2).start_index
        + (random_subsequence len_sequence d1 d2).length < len_sequence := by
  have h0 : (0 : Nat) < len_sequence - 2 := by omega
  have hst : (random_subsequence len_sequence d1 d2).start_index
      = d1 % (len_sequence - 2) := by
    simp [random_subsequence, get_random_elem_from_range, h0]
  have hstlt : d1 % (len_sequence - 2) < len_sequence - 2 :=
    Nat.mod_lt _ h0
  have h1 : (1 : Nat) < len_sequence - d1 % (len_sequence - 2) - 1 := by omega
  have hlen : (random_subsequence len_sequence d1 d2).length
      = 1 + d2 % (len_sequence - d1 % (len_sequence - 2) - 1 - 1) := by
    simp [random_subsequence, get_random_elem_from_range, h0, h1]
  have hlenlt : d2 % (len_sequence - d1 % (len_sequence - 2) - 1 - 1)
      < len_sequence - d1 % (len_sequence - 2) - 1 - 1 :=
    Nat.mod_lt _ (by omega)
  refine ⟨?_, ?_, ?_, ?_⟩ <;> simp only [hst, hlen] <;> omega

/-- For every route length ≥ 2 the sampled subsequence is in bounds
(`start_index + length ≤ len`), so `ordered_crossover`'s `unwrap`s cannot
fail in `Route::crossover`. -/
theorem random_subsequence_le (len d1 d2 : Nat) (h2 : 2 ≤ len) :
    (random_subsequence len d1 d2).start_index
      + (random_subsequence len d1 d2).length ≤ len := by
  rcases eq_or_lt_of_le h2 with heq | h3
  · have : random_subsequence len d1 d2 = ⟨0, 1⟩ := by
      subst heq
      simp [random_subsequence, get_random_elem_from_range]
    rw [this]
    show 0 + 1 ≤ len
    omega
  · have := (rs_bounds len d1 d2 (by omega)).2.2.2
    omega

/-- C8 (corrected): for `len_sequence ≥ 3`, `random_subsequence` draws
`start_index` from the half-open range `[0, len_sequence - 2)` — so the
attainable values are exactly `0 .. len_sequence - 3`, not the closed
interval up to `len_sequence - 2` — and `length` from the half-open range
`[1, len_sequence - start_index - 1)`, attaining exactly
`1 .. len_sequence - start_index - 2`; hence
`start_index + length < len_sequence` (indeed `≤ len_sequence - 2`). -/
theorem c8_random_subsequence_ranges (len_sequence : Nat) (h3 : 3 ≤ len_sequence) :
    (∀ d1 d2,
      (random_subsequence len_sequence d1 d2).start_index < len_sequence - 2
      ∧ 1 ≤ (random_subsequence len_sequence d1 d2).length
      ∧ (random_subsequence len_sequence d1 d2).length
          < len_sequence - (random_subsequence len_sequence d1 d2).start_index - 1
      ∧ (random_subsequence len_sequence d1 d2).start_index
          + (random_subsequence len_sequence d1 d2).length < len_sequence)
    ∧ (∀ st l', st < len_sequence - 2 → 1 ≤ l' → l' < len_sequence - st - 1 →
        ∃ d1 d2, random_subsequence len_sequence d1 d2 = ⟨st, l'⟩) := by
  constructor
  · intro d1 d2
    exact rs_bounds len_sequence d1 d2 h3
  · intro st l' hst h1 hl
    refine ⟨st, l' - 1, ?_⟩
    have h0 : (0 : Nat) < len_sequence - 2 := by omega
    have hstmod : st % (len_sequence - 2) = st := Nat.mod_eq_of_lt hst
    have h1' : (1 : Nat) < len_sequence - st - 1 := by omega
    have hlmod : (l' - 1) % (len_sequence - st - 1 - 1) = l' - 1 :=
      Nat.mod_eq_of_lt (by omega)
    have e1 : (random_subsequence len_sequence st (l' - 1)).start_index = st := by
      simp [random_subsequence, get_random_elem_from_range, h0, hstmod]
    have e2 : (random_subsequence len_sequence st (l' - 1)).length = l' := by
      simp only [random_subsequence, get_random_elem_from_range, if_pos h0,
        Nat.zero_add, Nat.sub_zero, hstmod]
      rw [if_pos h1', hlmod]
      omega
    rcases hrs : random_subsequence len_sequence st (l' - 1) with ⟨si, le⟩
    rw [hrs] at e1 e2
    subst e1
    subst e2
    rfl

/-- Witness for C8: the bounds at `len_sequence = 4` with draws `0, 0`. -/
theorem c8_witness :
    (random_subsequence 4 0 0).start_index < 4 - 2
    ∧ 1 ≤ (random_subsequence 4 0 0).length
    ∧ (random_subsequence 4 0 0).length
        < 4 - (random_subsequence 4 0 0).start_index - 1
    ∧ (random_subsequence 4 0 0).start_index + (random_subsequence 4 0 0).length < 4 :=
  (c8_random_subsequence_ranges 4 (by decide)).1 0 0

/-- Counterexample to C8 as stated: for `len_sequence = 3` the claim puts
`start_index` in the closed interval `[0, 1]`, but the value `1` is never
attained — `gen_range(0..1)` only ever yields `0`. -/
theorem c8_counterexample :
    ¬ ∃ d1 d2, (random_subsequence 3 d1 d2).start_index = 1 := by
  rintro ⟨d1, d2, h⟩
  have : (random_subsequence 3 d1 d2).start_index = 0 := by
    simp [random_subsequence, get_random_elem_from_range, Nat.mod_one]
  omega

/-! ### C6: parallel worker generation count -/

/-- C6 (corrected): each worker of the parallel branch runs the sequential
evolve-then-truncate fold exactly `n_generations / n_jobs + 1` times (the
source loops over `0..((n_generations / n_jobs) + 1)`), which equals
`⌈n_generations / n_jobs⌉` only when `n_jobs` does not divide
`n_generations`, and `⌈n_generations / n_jobs⌉ + 1` when it does. -/
theorem c6_worker_generation_count (n_generations n_jobs : Nat) (hj : 0 < n_jobs) :
    (worker_generation_count n_generations n_jobs = n_generations / n_jobs + 1)
    ∧ ((worker_generation_count n_generations n_jobs
          = ceil_div n_generations n_jobs) ↔ ¬ n_jobs ∣ n_generations)
    ∧ (n_jobs ∣ n_generations → worker_generation_count n_generations n_jobs
          = ceil_div n_generations n_jobs + 1)
    ∧ (∀ (initial : List Route) (size_generation : Nat) (d : DistanceMat)
        (O : Nat → Nat → Nat → Nat → Draws),
        evolve_population initial n_generations size_generation d n_jobs O
          = ((List.range n_jobs).mapM fun w =>
              ((List.range (worker_generation_count n_generations n_jobs)).foldl
                (fun acc g => acc.bind fun pop =>
                  (evolve pop (1 / 2) (O w g)).map fun ev =>
                    get_fittest_population ev size_generation d)
                (some initial)).map
                fun pop => get_n_fittest pop size_generation d).map
            fun results => results.flatten.dedup) := by
  have hceil : ceil_div n_generations n_jobs
      = if n_jobs ∣ n_generations then n_generations / n_jobs
        else n_generations / n_jobs + 1 := by
    by_cases hdvd : n_jobs ∣ n_generations
    · obtain ⟨q, rfl⟩ := hdvd
      rw [if_pos ⟨q, rfl⟩]
      unfold ceil_div
      have hdiv0 : (n_jobs - 1) / n_jobs = 0 := Nat.div_eq_of_lt (by omega)
      rw [Nat.add_sub_assoc hj, Nat.mul_add_div hj, hdiv0,
        Nat.mul_div_cancel_left q hj]
      omega
    · rw [if_neg hdvd]
      have hr : n_generations % n_jobs ≠ 0 := by
        intro h0
        exact hdvd (Nat.dvd_iff_mod_eq_zero.mpr h0)
      have hqr := Nat.div_add_mod n_generations n_jobs
      have hrlt : n_generations % n_jobs < n_jobs := Nat.mod_lt _ hj
      obtain ⟨m, hm⟩ : ∃ m, n_jobs * (n_generations / n_jobs) = m := ⟨_, rfl⟩
      have h1 : n_generations + n_jobs - 1
          = n_jobs * (n_generations / n_jobs + 1) + (n_generations % n_jobs - 1) := by
        rw [Nat.mul_succ, hm]
        rw [hm] at hqr
        omega
      have hdiv0 : (n_generations % n_jobs - 1) / n_jobs = 0 :=
        Nat.div_eq_of_lt (by omega)
      unfold ceil_div
      rw [h1, Nat.mul_add_div hj, hdiv0]
  refine ⟨rfl, ?_, ?_, ?_⟩
  · rw [hceil]
    by_cases hdvd : n_jobs ∣ n_generations <;>
      simp [hdvd, worker_generation_count]
  · intro hdvd
    rw [hceil, if_pos hdvd]
    rfl
  · intro initial size_generation d O
    unfold evolve_population
    rw [if_neg (Nat.pos_iff_ne_zero.mp hj)]

/-- Witness for C6: with 10 generations and 3 workers (3 does not divide
10) the loop count does equal the ceiling, `⌈10/3⌉ = 4`. -/
theorem c6_witness : worker_generation_count 10 3 = ceil_div 10 3 :=
  ((c6_worker_generation_count 10 3 (by decide)).2.1).mpr (by decide)

/-- Counterexample to C6 as stated: with 10 generations and 2 workers each
worker runs the fold `10 / 2 + 1 = 6` times, not `⌈10/2⌉ = 5` times. -/
theorem c6_counterexample :
    worker_generation_count 10 2 = 6 ∧ ceil_div 10 2 = 5 := by
  constructor <;> decide

/-! ### C10: mutate is partial on short routes -/

/-- C10 (confirmed): whenever the mutation branch is taken
(`¬ draw > prob`, in particular always for `prob = 1` since the uniform
draw lies in `[0,1)`), `mutate` on a route of length 1 or 2 panics
(modelled: returns `none`) — the second `remove_elem` hits an out-of-bounds
index — while on routes of length ≥ 3 `mutate` always returns a route. -/
theorem c10_mutate_short_routes (r : Route) (prob draw : ℚ) (d1 c : Nat) :
    (draw ≤ prob → r.indexes.length = 1 ∨ r.indexes.length = 2 →
      mutate r prob draw d1 c = none)
    ∧ (3 ≤ r.indexes.length → ∃ r', mutate r prob draw d1 c = some r') := by
  constructor
  · intro hdp hlen
    have hbr : ¬ draw > prob := not_lt.mpr hdp
    rcases hlen with h1 | h2
    · simp [mutate, if_neg hbr, h1, get_random_elem_from_range, remove_elem]
    · simp [mutate, if_neg hbr, h2, get_random_elem_from_range, remove_elem,
        Nat.mod_one]
  · intro h3
    by_cases hbr : draw > prob
    · exact ⟨r, by simp [mutate, if_pos hbr]⟩
    · have hlen0 : ¬ r.indexes.length = 0 := by omega
      have hpos : (0 : Nat) < r.indexes.length - 1 := by omega
      have hput : get_random_elem_from_range 0 (r.indexes.length - 1) d1
          = d1 % (r.indexes.length - 1) := by
        simp [get_random_elem_from_range, hpos]
      have hputlt : d1 % (r.indexes.length - 1) < r.indexes.length - 1 :=
        Nat.mod_lt _ hpos
      have e1 : remove_elem (List.range (r.indexes.length - 1))
          (d1 % (r.indexes.length - 1))
          = some ((List.range (r.indexes.length - 1)).eraseIdx
              (d1 % (r.indexes.length - 1))) := by
        rw [remove_elem, if_pos (by simpa using hputlt)]
      have honce : ((List.range (r.indexes.length - 1)).eraseIdx
          (d1 % (r.indexes.length - 1))).length = r.indexes.length - 2 := by
        simp [List.length_eraseIdx, hputlt]
        omega
      have hsecond : max (d1 % (r.indexes.length - 1)) 1 - 1
          < r.indexes.length - 2 := by
        rcases Nat.le_total (d1 % (r.indexes.length - 1)) 1 with h | h
        · rw [Nat.max_eq_right h]
          omega
        · rw [Nat.max_eq_left h]
          omega
      have e2 : remove_elem ((List.range (r.indexes.length - 1)).eraseIdx
          (d1 % (r.indexes.length - 1))) (max (d1 % (r.indexes.length - 1)) 1 - 1)
          = some (((List.range (r.indexes.length - 1)).eraseIdx
              (d1 % (r.indexes.length - 1))).eraseIdx
                (max (d1 % (r.indexes.length - 1)) 1 - 1)) := by
        rw [remove_elem, if_pos (by rw [honce]; exact hsecond)]
      simp only [mutate, if_neg hbr, if_neg hlen0, hput, e1, e2]
      exact ⟨_, rfl⟩

/-- Witness for C10: `mutate` on the length-2 route `[1, 2]` with the
mutation branch taken panics (returns no route). -/
theorem c10_witness : mutate ⟨[1, 2]⟩ 1 0 0 0 = none :=
  (c10_mutate_short_routes ⟨[1, 2]⟩ 1 0 0 0).1 (by norm_num) (by decide)

/-! ### C4: crossover boundary cases -/

/-- C4 (corrected): for parents of length `n` that are permutations of the
same set, a full-length subsequence (`start 0`, `length n`) yields exactly
parent A; but a zero-length subsequence at `start_index = s` yields parent
B rotated left by `s` (`drop s ++ take s`), which equals B exactly only
when `s = 0` (or `s = n`), not for every `s ≤ n` as claimed. -/
theorem c4_crossover_boundary (n : Nat) (a b : Route)
    (ha : a.indexes.length = n) (hb : b.indexes.length = n)
    (hperm : a.indexes ~ b.indexes) :
    ordered_crossover a b ⟨0, n⟩ = some a
    ∧ (∀ s, s ≤ n → ordered_crossover a b ⟨s, 0⟩
        = some ⟨b.indexes.drop s ++ b.indexes.take s⟩) := by
  constructor
  · have hin_a : get_values_in ⟨0, n⟩ a.indexes = some a.indexes := by
      simp [get_values_in, ha]
    have hin_b : get_values_in ⟨0, n⟩ b.indexes = some b.indexes := by
      simp [get_values_in, hb]
    have hafter : get_values_after ⟨0, n⟩ b.indexes = some [] := by
      simp [get_values_after, hb]
    have hbefore : get_values_before ⟨0, n⟩ b.indexes = some [] := by
      simp [get_values_before]
    simp only [ordered_crossover, hin_a, hin_b, hafter, hbefore]
    have hfil : b.indexes.filter (fun e => !is_in e a.indexes) = [] := by
      rw [List.filter_eq_nil_iff]
      intro e he
      have : e ∈ a.indexes := hperm.mem_iff.mpr he
      simp [(is_in_iff e a.indexes).mpr this]
    rw [hfil]
    cases a
    simp
  · intro s hs
    have hsa : s ≤ a.indexes.length := by omega
    have hsb : s ≤ b.indexes.length := by omega
    have hin_a : get_values_in ⟨s, 0⟩ a.indexes = some [] := by
      simp [get_values_in, hsa]
    have hin_b : get_values_in ⟨s, 0⟩ b.indexes = some [] := by
      simp [get_values_in, hsb]
    have hafter : get_values_after ⟨s, 0⟩ b.indexes
        = some (b.indexes.drop s) := by
      simp [get_values_after, hsb]
    have hbefore : get_values_before ⟨s, 0⟩ b.indexes
        = some (b.indexes.take s) := by
      simp [get_values_before, hsb]
    simp only [ordered_crossover, hin_a, hin_b, hafter, hbefore]
    have hfil : ∀ l : List Nat, l.filter (fun e => !is_in e []) = l := by
      intro l
      simp [is_in]
    rw [hfil, hfil, hfil]
    simp

/-- Witness for C4: the full-length boundary case on the parents of the
repo's own crossover test. -/
theorem c4_witness :
    ordered_crossover ⟨[3, 2, 0, 1]⟩ ⟨[1, 2, 3, 0]⟩ ⟨0, 4⟩
      = some ⟨[3, 2, 0, 1]⟩ :=
  (c4_crossover_boundary 4 ⟨[3, 2, 0, 1]⟩ ⟨[1, 2, 3, 0]⟩ (by decide) (by decide)
    (by decide)).1

/-- Counterexample to C4 as stated: a zero-length subsequence at
`start_index = 1 ≤ 4` returns parent B rotated by one, `[2, 3, 0, 1]`, not
parent B `[1, 2, 3, 0]`. -/
theorem c4_counterexample :
    ordered_crossover ⟨[3, 2, 0, 1]⟩ ⟨[1, 2, 3, 0]⟩ ⟨1, 0⟩
        = some ⟨[2, 3, 0, 1]⟩
      ∧ ordered_crossover ⟨[3, 2, 0, 1]⟩ ⟨[1, 2, 3, 0]⟩ ⟨1, 0⟩
        ≠ some ⟨[1, 2, 3, 0]⟩ := by
  constructor <;> decide

/-! ### C5: closed-walk cost formula -/

/-- The accumulated cost of walking `prev` then through `rest` (helper used
to characterise the `compute_cost` fold). -/
def path_cost (d : DistanceMat) : Nat → List Nat → ℚ
  | _, [] => 0
  | prev, c :: rest => dist d prev c + path_cost d c rest

theorem foldl_cost_step (d : DistanceMat) :
    ∀ (l : List Nat) (prev : Nat) (c : ℚ),
      (l.foldl (cost_step d) (c, some prev)).1 = c + path_cost d prev l := by
  intro l
  induction l with
  | nil =>
    intro prev c
    simp [path_cost]
  | cons x xs ih =>
    intro prev c
    show (xs.foldl (cost_step d) (cost_step d (c, some prev) x)).1 = _
    rw [show cost_step d (c, some prev) x = (c + dist d prev x, some x) from rfl, ih]
    rw [path_cost]
    ring

theorem path_cost_eq_sum (d : DistanceMat) :
    ∀ (xs : List Nat) (x : Nat),
      path_cost d x xs = ∑ i ∈ Finset.range xs.length,
        dist d ((x :: xs).getD i 0) ((x :: xs).getD (i + 1) 0) := by
  intro xs
  induction xs with
  | nil =>
    intro x
    simp [path_cost]
  | cons y ys ih =>
    intro x
    rw [path_cost, ih y, List.length_cons, Finset.sum_range_succ']
    simp only [List.getD_cons_succ, List.getD_cons_zero]
    ring

/-- C5 (confirmed): `compute_cost` returns
`d[seq[k-1]][seq[0]] + Σ_{i=1}^{k-1} d[seq[i-1]][seq[i]]` for every
sequence of `k ≥ 1` in-range indexes; for `k = 1` it returns
`d[seq[0]][seq[0]]`, which is `0` on a zero diagonal; and `fitness` is the
negated cost of the route's full index sequence. -/
theorem c5_cost_formula (d : DistanceMat) (n : Nat) (seq : List Nat)
    (hdim : d.distances.length = n) (hsq : ∀ row ∈ d.distances, row.length = n)
    (hk : 1 ≤ seq.length) (hidx : ∀ i ∈ seq, i < n) :
    compute_cost d seq
      = dist d (seq.getD (seq.length - 1) 0) (seq.getD 0 0)
        + ∑ i ∈ Finset.Ico 1 seq.length, dist d (seq.getD (i - 1) 0) (seq.getD i 0)
    ∧ (∀ j, seq = [j] → compute_cost d seq = dist d j j)
    ∧ ((∀ j, j < n → dist d j j = 0) → ∀ j, seq = [j] → compute_cost d seq = 0)
    ∧ (∀ r : Route, fitness r d = -compute_cost d r.indexes) := by
  obtain ⟨x, xs, rfl⟩ : ∃ x xs, seq = x :: xs := by
    cases seq with
    | nil => simp at hk
    | cons x xs => exact ⟨x, xs, rfl⟩
  have hsingle : ∀ j, x :: xs = [j] → compute_cost d (x :: xs) = dist d j j := by
    intro j h
    obtain ⟨rfl, rfl⟩ : x = j ∧ xs = [] := by simpa using h
    rfl
  refine ⟨?_, hsingle, ?_, fun r => rfl⟩
  · show (List.foldl (cost_step d) _ (x :: xs)).1 = _
    rw [List.foldl_cons,
      show cost_step d
          (dist d ((x :: xs).getD ((x :: xs).length - 1) 0) ((x :: xs).getD 0 0),
            (none : Option Nat)) x
        = (dist d ((x :: xs).getD ((x :: xs).length - 1) 0) ((x :: xs).getD 0 0),
            some x) from rfl,
      foldl_cost_step]
    congr 1
    rw [path_cost_eq_sum, Finset.sum_Ico_eq_sum_range]
    simp only [List.length_cons, Nat.add_sub_cancel]
    apply Finset.sum_congr rfl
    intro i _
    have e1 : 1 + i - 1 = i := by omega
    have e2 : 1 + i = i + 1 := by omega
    rw [e1, e2]
  · intro hdiag j h
    have hj : j < n := by
      apply hidx
      rw [h]
      simp
    rw [hsingle j h]
    exact hdiag j hj

/-- Witness for C5 at the repo's test distance matrix and the route
`[1, 2, 0]` (cost 6). -/
theorem c5_witness :
    compute_cost ⟨[[0, 1, 2], [1, 0, 3], [2, 3, 0]]⟩ [1, 2, 0]
      = dist ⟨[[0, 1, 2], [1, 0, 3], [2, 3, 0]]⟩
          (([1, 2, 0] : List Nat).getD (([1, 2, 0] : List Nat).length - 1) 0)
          (([1, 2, 0] : List Nat).getD 0 0)
        + ∑ i ∈ Finset.Ico 1 ([1, 2, 0] : List Nat).length,
            dist ⟨[[0, 1, 2], [1, 0, 3], [2, 3, 0]]⟩
              (([1, 2, 0] : List Nat).getD (i - 1) 0)
              (([1, 2, 0] : List Nat).getD i 0) :=
  (c5_cost_formula ⟨[[0, 1, 2], [1, 0, 3], [2, 3, 0]]⟩ 3 [1, 2, 0] (by decide)
    (by decide) (by decide) (by decide)).1

/-! ### C1: permutation preservation by the genetic operators -/

theorem remove_elem_eq_some {l : List Nat} {i : Nat} {out : List Nat}
    (h : remove_elem l i = some out) : i < l.length ∧ out = l.eraseIdx i := by
  unfold remove_elem at h
  split at h
  · exact ⟨by assumption, (Option.some.inj h).symm⟩
  · exact absurd h (by simp)

theorem choose_eq_some {l : List Nat} {dr m : Nat} (h : choose l dr = some m) :
    m ∈ l := by
  unfold choose at h
  split at h
  · exact absurd h (by simp)
  · rename_i hne
    obtain rfl := Option.some.inj h
    have hl : 0 < l.length := Nat.pos_of_ne_zero hne
    have hlt : dr % l.length < l.length := Nat.mod_lt _ hl
    rw [List.getD_eq_getElem?_getD, List.getElem?_eq_getElem hlt]
    simp

theorem ordered_crossover_perm (n : Nat) (a b : Route) (s : Subsequence) (c : Route)
    (ha : a.indexes ~ List.range n) (hb : b.indexes ~ List.range n)
    (hs : s.start_index + s.length ≤ n)
    (hc : ordered_crossover a b s = some c) :
    c.indexes ~ List.range n := by
  have hal : a.indexes.length = n := by rw [ha.length_eq, List.length_range]
  have hbl : b.indexes.length = n := by rw [hb.length_eq, List.length_range]
  have hin_a : get_values_in s a.indexes
      = some ((a.indexes.drop s.start_index).take s.length) := by
    rw [get_values_in, if_pos (by omega)]
  have hin_b : get_values_in s b.indexes
      = some ((b.indexes.drop s.start_index).take s.length) := by
    rw [get_values_in, if_pos (by omega)]
  have hafter : get_values_after s b.indexes
      = some (b.indexes.drop (s.start_index + s.length)) := by
    rw [get_values_after, if_pos (by omega)]
  have hbefore : get_values_before s b.indexes
      = some (b.indexes.take s.start_index) := by
    rw [get_values_before, if_pos (by omega)]
  unfold ordered_crossover at hc
  rw [hin_a, hin_b, hafter, hbefore] at hc
  obtain rfl := Option.some.inj hc
  show ((b.indexes.drop s.start_index).take s.length).filter
      (fun e => !is_in e ((a.indexes.drop s.start_index).take s.length))
    ++ (a.indexes.drop s.start_index).take s.length
    ++ (b.indexes.drop (s.start_index + s.length)).filter
      (fun e => !is_in e ((a.indexes.drop s.start_index).take s.length))
    ++ (b.indexes.take s.start_index).filter
      (fun e => !is_in e ((a.indexes.drop s.start_index).take s.length))
    ~ List.range n
  set sel := (a.indexes.drop s.start_index).take s.length with hsel_def
  have hsel_sub : sel <+ a.indexes :=
    (List.take_sublist _ _).trans (List.drop_sublist _ _)
  have hnd_a : a.indexes.Nodup := ha.nodup_iff.mpr (List.nodup_range n)
  have hnd_sel : sel.Nodup := List.Nodup.sublist hsel_sub hnd_a
  rw [List.perm_iff_count]
  intro v
  rw [List.count_append, List.count_append, List.count_append]
  by_cases hv : v ∈ sel
  · have hpv : is_in v sel = true := (is_in_iff v sel).mpr hv
    have hf : ∀ l : List Nat, (l.filter fun e => !is_in e sel).count v = 0 := by
      intro l
      rw [List.count_eq_zero]
      intro hmem
      have hmem2 := List.of_mem_filter hmem
      simp [hpv] at hmem2
    have hsel1 : sel.count v = 1 := List.count_eq_one_of_mem hnd_sel hv
    have hrange : (List.range n).count v = 1 :=
      List.count_eq_one_of_mem (List.nodup_range n)
        (ha.mem_iff.mp (hsel_sub.subset hv))
    rw [hf, hf, hf, hsel1, hrange]
  · have hpv : is_in v sel = false := by
      rw [← Bool.not_eq_true, is_in_iff]
      exact hv
    have hf : ∀ l : List Nat, (l.filter fun e => !is_in e sel).count v = l.count v := by
      intro l
      apply List.count_filter
      simp [hpv]
    have hsel0 : sel.count v = 0 := List.count_eq_zero.mpr hv
    have hdecomp : b.indexes.take s.start_index
        ++ ((b.indexes.drop s.start_index).take s.length
          ++ b.indexes.drop (s.start_index + s.length)) = b.indexes := by
      rw [show b.indexes.drop (s.start_index + s.length)
          = (b.indexes.drop s.start_index).drop s.length from
          (List.drop_drop _ _ _).symm,
        List.take_append_drop, List.take_append_drop]
    have hcount_b : ((b.indexes.drop s.start_index).take s.length).count v
        + ((b.indexes.take s.start_index).count v
          + (b.indexes.drop (s.start_index + s.length)).count v)
        = (List.range n).count v := by
      conv_rhs => rw [← hb.count_eq v, ← hdecomp]
      rw [List.count_append, List.count_append]
      omega
    rw [hf, hf, hf, hsel0]
    omega

theorem mutate_perm (n : Nat) (r : Route) (prob draw : ℚ) (d1 ch : Nat) (r' : Route)
    (h : r.indexes ~ List.range n) (hm : mutate r prob draw d1 ch = some r') :
    r'.indexes ~ List.range n := by
  unfold mutate at hm
  split at hm
  · exact (Option.some.inj hm) ▸ h
  · split at hm
    · exact absurd hm (by simp)
    · rename_i hlen0
      split at hm
      · exact absurd hm (by simp)
      · rename_i once e1
        split at hm
        · exact absurd hm (by simp)
        · rename_i candidates e2
          have hput_lt : get_random_elem_from_range 0 (r.indexes.length - 1) d1
              < r.indexes.length := by
            have hb := (remove_elem_eq_some e1).1
            rw [List.length_range] at hb
            omega
          have hmove_lt : ((choose candidates ch).getD
              ((get_random_elem_from_range 0 (r.indexes.length - 1) d1 + 1)
                % r.indexes.length)) < r.indexes.length := by
            rcases e3 : choose candidates ch with _ | m
            · simp only [e3, Option.getD_none]
              exact Nat.mod_lt _ (by omega)
            · simp only [e3, Option.getD_some]
              have hm_mem : m ∈ candidates := choose_eq_some e3
              have hc_sub : candidates <+ List.range (r.indexes.length - 1) := by
                rw [(remove_elem_eq_some e2).2, (remove_elem_eq_some e1).2]
                exact (List.eraseIdx_sublist _ _).trans (List.eraseIdx_sublist _ _)
              have := List.mem_range.mp (hc_sub.subset hm_mem)
              omega
          obtain rfl := Option.some.inj hm
          exact (change_order_perm _ _ _ hmove_lt hput_lt).trans h

/-- C1 (confirmed): every route returned by `mutate` (any probability, any
draws) on a permutation of `0..n` is again a permutation of `0..n`, and the
child returned by `ordered_crossover` on two permutations of `0..n` with an
in-bounds subsequence — hence also by `crossover` — is again a permutation
of `0..n`. -/
theorem c1_permutation_preservation :
    (∀ (n : Nat) (r : Route) (prob draw : ℚ) (d1 ch : Nat) (r' : Route),
      r.indexes ~ List.range n → mutate r prob draw d1 ch = some r' →
        r'.indexes ~ List.range n)
    ∧ (∀ (n : Nat) (a b : Route) (s : Subsequence) (c : Route),
      a.indexes ~ List.range n → b.indexes ~ List.range n →
        s.start_index + s.length ≤ n → ordered_crossover a b s = some c →
          c.indexes ~ List.range n)
    ∧ (∀ (n : Nat) (a b : Route) (d1 d2 : Nat) (c : Route),
      a.indexes ~ List.range n → b.indexes ~ List.range n →
        crossover a b d1 d2 = some c → c.indexes ~ List.range n) := by
  refine ⟨fun n r prob draw d1 ch r' h hm => mutate_perm n r prob draw d1 ch r' h hm,
    fun n a b s c ha hb hs hc => ordered_crossover_perm n a b s c ha hb hs hc, ?_⟩
  intro n a b d1 d2 c ha hb hc
  unfold crossover at hc
  split at hc
  · exact absurd hc (by simp)
  · rename_i hlen
    have hal : a.indexes.length = n := by rw [ha.length_eq, List.length_range]
    have hbound := random_subsequence_le a.indexes.length d1 d2 (by omega)
    exact ordered_crossover_perm n a b _ c ha hb (by omega) hc

/-- Witness for C1: mutating the identity route of length 3 with the
mutation branch taken yields `[1, 0, 2]`, a permutation of `0..3`. -/
theorem c1_witness : (Route.mk [1, 0, 2]).indexes ~ List.range 3 :=
  c1_permutation_preservation.1 3 ⟨[0, 1, 2]⟩ 1 0 0 0 ⟨[1, 0, 2]⟩ (by decide)
    (by decide)

/-! ### C2: selection correctness of get_n_fittest -/

theorem argsort_perm (data : List ℚ) : argsort data ~ List.range data.length :=
  List.perm_insertionSort _ _

theorem argsort_length (data : List ℚ) : (argsort data).length = data.length := by
  rw [(argsort_perm data).length_eq, List.length_range]

theorem argsort_mem {data : List ℚ} {j : Nat} :
    j ∈ argsort data ↔ j < data.length := by
  rw [(argsort_perm data).mem_iff, List.mem_range]

theorem argsort_sorted (data : List ℚ) :
    List.Sorted (fun a b => data.getD b 0 ≤ data.getD a 0) (argsort data) := by
  haveI : IsTotal Nat (fun a b => data.getD b 0 ≤ data.getD a 0) :=
    ⟨fun a b => le_total _ _⟩
  haveI : IsTrans Nat (fun a b => data.getD b 0 ≤ data.getD a 0) :=
    ⟨fun _ _ _ h1 h2 => le_trans h2 h1⟩
  exact List.sorted_insertionSort _ _

theorem fitness_keys (pop : List Route) (d : DistanceMat) :
    (fitnesses pop d).map Prod.fst = pop.map fun r => fitness r d := by
  simp [fitnesses]

theorem fitness_keys_getD (pop : List Route) (d : DistanceMat) {j : Nat}
    (h : j < pop.length) :
    ((fitnesses pop d).map Prod.fst).getD j 0 = fitness (pop.getD j ⟨[]⟩) d := by
  have h1 : j < ((fitnesses pop d).map Prod.fst).length := by simp [fitnesses, h]
  rw [List.getD_eq_getElem?_getD, List.getElem?_eq_getElem h1,
    List.getD_eq_getElem?_getD, List.getElem?_eq_getElem h]
  simp [fitnesses]

theorem fitnesses_getD (pop : List Route) (d : DistanceMat) {j : Nat}
    (h : j < pop.length) :
    ((fitnesses pop d).getD j (0, ⟨[]⟩)).2 = pop.getD j ⟨[]⟩ := by
  have h1 : j < (fitnesses pop d).length := by simp [fitnesses, h]
  rw [List.getD_eq_getElem?_getD, List.getElem?_eq_getElem h1,
    List.getD_eq_getElem?_getD, List.getElem?_eq_getElem h]
  simp [fitnesses]

theorem get_n_fittest_length (pop : List Route) (n : Nat) (d : DistanceMat) :
    (get_n_fittest pop n d).length = min n pop.length := by
  unfold get_n_fittest
  rw [List.length_map, List.length_take, argsort_length]
  simp [fitnesses]

theorem get_n_fittest_sorted (pop : List Route) (n : Nat) (d : DistanceMat) :
    List.Sorted (fun x y => fitness y d ≤ fitness x d) (get_n_fittest pop n d) := by
  unfold get_n_fittest
  rw [List.Sorted, List.pairwise_map]
  have htake : ((argsort ((fitnesses pop d).map Prod.fst)).take n).Pairwise
      (fun a b => ((fitnesses pop d).map Prod.fst).getD b 0
        ≤ ((fitnesses pop d).map Prod.fst).getD a 0) :=
    List.Pairwise.sublist (List.take_sublist _ _)
      (argsort_sorted ((fitnesses pop d).map Prod.fst))
  refine htake.imp_of_mem ?_
  intro a b hamem hbmem hab
  have ha : a < pop.length := by
    have := argsort_mem.mp ((List.take_sublist _ _).subset hamem)
    simpa [fitnesses] using this
  have hb : b < pop.length := by
    have := argsort_mem.mp ((List.take_sublist _ _).subset hbmem)
    simpa [fitnesses] using this
  rw [fitness_keys_getD pop d ha, fitness_keys_getD pop d hb] at hab
  rw [fitnesses_getD pop d ha, fitnesses_getD pop d hb]
  exact hab

theorem get_n_fittest_outside_le (pop : List Route) (n : Nat) (d : DistanceMat) :
    ∀ r ∈ pop, r ∉ get_n_fittest pop n d →
      ∀ r' ∈ get_n_fittest pop n d, fitness r d ≤ fitness r' d := by
  intro r hr hnot r' hr'
  obtain ⟨j, hj, hjr⟩ := List.getElem_of_mem hr
  have hjD : pop.getD j ⟨[]⟩ = r := by
    rw [List.getD_eq_getElem?_getD, List.getElem?_eq_getElem hj, Option.getD_some, hjr]
  have hjlen : j < ((fitnesses pop d).map Prod.fst).length := by simp [fitnesses, hj]
  have hjmem : j ∈ argsort ((fitnesses pop d).map Prod.fst) := argsort_mem.mpr hjlen
  set σ := argsort ((fitnesses pop d).map Prod.fst) with hσ
  have hsplit : σ = σ.take n ++ σ.drop n := (List.take_append_drop n σ).symm
  have hjdrop : j ∈ σ.drop n := by
    rcases List.mem_append.mp (hsplit ▸ hjmem) with htk | hdp
    · exfalso
      apply hnot
      unfold get_n_fittest
      refine List.mem_map.mpr ⟨j, htk, ?_⟩
      rw [fitnesses_getD pop d hj, hjD]
    · exact hdp
  obtain ⟨i, hi, hir'⟩ := List.mem_map.mp hr'
  have hilen : i < pop.length := by
    have := argsort_mem.mp ((List.take_sublist _ _).subset hi)
    simpa [fitnesses] using this
  have hsorted := argsort_sorted ((fitnesses pop d).map Prod.fst)
  rw [List.Sorted, ← hσ, hsplit, List.pairwise_append] at hsorted
  have hrel := hsorted.2.2 i hi j hjdrop
  rw [fitness_keys_getD pop d hj, fitness_keys_getD pop d hilen] at hrel
  rw [← hir', fitnesses_getD pop d hilen, ← hjD]
  exact hrel

theorem get_n_fittest_max (pop : List Route) (n : Nat) (d : DistanceMat)
    (hn : 1 ≤ n) (hpop : pop ≠ []) :
    ∃ r' ∈ get_n_fittest pop n d, ∀ x ∈ pop, fitness x d ≤ fitness r' d := by
  set σ := argsort ((fitnesses pop d).map Prod.fst) with hσ
  have hσlen : σ.length = pop.length := by
    rw [hσ, argsort_length]
    simp [fitnesses]
  have hσne : σ ≠ [] := by
    intro h0
    rw [h0] at hσlen
    simp at hσlen
    exact hpop (List.length_eq_zero.mp hσlen.symm)
  obtain ⟨hd, tl, hcons⟩ := List.exists_cons_of_ne_nil hσne
  have hhdlen : hd < pop.length := by
    have : hd ∈ σ := by rw [hcons]; simp
    have := argsort_mem.mp (hσ ▸ this)
    simpa [fitnesses] using this
  obtain ⟨m, rfl⟩ : ∃ m, n = m + 1 := ⟨n - 1, by omega⟩
  have htakecons : σ.take (m + 1) = hd :: tl.take m := by
    rw [hcons, List.take_succ_cons]
  refine ⟨(pop.getD hd ⟨[]⟩), ?_, ?_⟩
  · unfold get_n_fittest
    refine List.mem_map.mpr ⟨hd, ?_, ?_⟩
    · rw [← hσ, htakecons]
      simp
    · rw [fitnesses_getD pop d hhdlen]
  · intro x hx
    obtain ⟨j, hj, hjx⟩ := List.getElem_of_mem hx
    have hjmem : j ∈ σ := by
      rw [hσ]
      refine argsort_mem.mpr ?_
      simp [fitnesses, hj]
    have hsorted := argsort_sorted ((fitnesses pop d).map Prod.fst)
    rw [← hσ, hcons, List.sorted_cons] at hsorted
    have hrel : ((fitnesses pop d).map Prod.fst).getD j 0
        ≤ ((fitnesses pop d).map Prod.fst).getD hd 0 := by
      rcases List.mem_cons.mp (hcons ▸ hjmem) with rfl | hjtl
      · exact le_refl _
      · exact hsorted.1 j hjtl
    rw [fitness_keys_getD pop d hj, fitness_keys_getD pop d hhdlen] at hrel
    have hjD : pop.getD j ⟨[]⟩ = x := by
      rw [List.getD_eq_getElem?_getD, List.getElem?_eq_getElem hj, Option.getD_some, hjx]
    rw [← hjD]
    exact hrel

/-- C2 (confirmed): `get_n_fittest` returns exactly `min n |pop|` routes in
non-increasing fitness order, no member outside the returned list has
fitness strictly greater than any returned route, and on the repo's test
matrix the three routes of costs 6, 2, 4 select as the cost-2 route
followed by the cost-4 route for `n = 2`. -/
theorem c2_get_n_fittest (pop : List Route) (n : Nat) (d : DistanceMat) :
    (get_n_fittest pop n d).length = min n pop.length
    ∧ List.Sorted (fun x y => fitness y d ≤ fitness x d) (get_n_fittest pop n d)
    ∧ (∀ r ∈ pop, r ∉ get_n_fittest pop n d →
        ∀ r' ∈ get_n_fittest pop n d, fitness r d ≤ fitness r' d)
    ∧ (compute_cost ⟨[[0, 1, 2], [1, 0, 3], [2, 3, 0]]⟩ [1, 2, 0] = 6
        ∧ compute_cost ⟨[[0, 1, 2], [1, 0, 3], [2, 3, 0]]⟩ [1, 0] = 2
        ∧ compute_cost ⟨[[0, 1, 2], [1, 0, 3], [2, 3, 0]]⟩ [2, 0] = 4
        ∧ get_n_fittest [⟨[1, 2, 0]⟩, ⟨[1, 0]⟩, ⟨[2, 0]⟩] 2
            ⟨[[0, 1, 2], [1, 0, 3], [2, 3, 0]]⟩ = [⟨[1, 0]⟩, ⟨[2, 0]⟩]) := by
  refine ⟨get_n_fittest_length pop n d, get_n_fittest_sorted pop n d,
    get_n_fittest_outside_le pop n d, ?_, ?_, ?_, ?_⟩
  · norm_num [compute_cost, cost_step, dist]
  · norm_num [compute_cost, cost_step, dist]
  · norm_num [compute_cost, cost_step, dist]
  · have hf1 : fitness ⟨[1, 2, 0]⟩ ⟨[[0, 1, 2], [1, 0, 3], [2, 3, 0]]⟩ = -6 := by
      norm_num [fitness, compute_cost, cost_step, dist]
    have hf2 : fitness ⟨[1, 0]⟩ ⟨[[0, 1, 2], [1, 0, 3], [2, 3, 0]]⟩ = -2 := by
      norm_num [fitness, compute_cost, cost_step, dist]
    have hf3 : fitness ⟨[2, 0]⟩ ⟨[[0, 1, 2], [1, 0, 3], [2, 3, 0]]⟩ = -4 := by
      norm_num [fitness, compute_cost, cost_step, dist]
    unfold get_n_fittest fitnesses argsort
    simp only [List.map_cons, List.map_nil, hf1, hf2, hf3]
    decide

/-- Witness for C2: the cost-6 route, left out of the top 2, has fitness no
greater than the returned cost-2 route. -/
theorem c2_witness :
    fitness ⟨[1, 2, 0]⟩ ⟨[[0, 1, 2], [1, 0, 3], [2, 3, 0]]⟩
      ≤ fitness ⟨[1, 0]⟩ ⟨[[0, 1, 2], [1, 0, 3], [2, 3, 0]]⟩ :=
  (c2_get_n_fittest [⟨[1, 2, 0]⟩, ⟨[1, 0]⟩, ⟨[2, 0]⟩] 2
      ⟨[[0, 1, 2], [1, 0, 3], [2, 3, 0]]⟩).2.2.1
    ⟨[1, 2, 0]⟩ (by decide)
    (by
      rw [(c2_get_n_fittest [⟨[1, 2, 0]⟩, ⟨[1, 0]⟩, ⟨[2, 0]⟩] 2
        ⟨[[0, 1, 2], [1, 0, 3], [2, 3, 0]]⟩).2.2.2.2.2.2]
      decide)
    ⟨[1, 0]⟩
    (by
      rw [(c2_get_n_fittest [⟨[1, 2, 0]⟩, ⟨[1, 0]⟩, ⟨[2, 0]⟩] 2
        ⟨[[0, 1, 2], [1, 0, 3], [2, 3, 0]]⟩).2.2.2.2.2.2]
      decide)

/-! ### C3: truncation never discards the current best -/

theorem evolve_keeps_members {pop : List Route} {prob : ℚ} {O : Nat → Nat → Draws}
    {ev : List Route} (h : evolve pop prob O = some ev) : ∀ r ∈ pop, r ∈ ev := by
  unfold evolve evolve_individuals at h
  rcases hX : (pairs pop.length).mapM (fun ij =>
      make_child (pop.getD ij.1 ⟨[]⟩) (pop.getD ij.2 ⟨[]⟩) prob (O ij.1 ij.2))
    with _ | children
  · rw [hX] at h
    simp at h
  · rw [hX] at h
    simp only [Option.map_some'] at h
    obtain rfl := Option.some.inj h
    intro r hr
    exact List.mem_dedup.mpr (List.mem_append.mpr (Or.inr hr))

theorem evolve_step_preserve (d : DistanceMat) (size : Nat) (hsize : 1 ≤ size)
    {pop pop' : List Route} {prob : ℚ} {O : Nat → Nat → Draws}
    (hpop : pop ≠ [])
    (h : (evolve pop prob O).map (fun ev => get_fittest_population ev size d)
      = some pop') :
    pop' ≠ [] ∧ ∃ r' ∈ pop', ∀ x ∈ pop, fitness x d ≤ fitness r' d := by
  rcases hev : evolve pop prob O with _ | ev
  · rw [hev] at h
    simp at h
  · rw [hev] at h
    simp only [Option.map_some'] at h
    obtain rfl := Option.some.inj h
    have hmem := evolve_keeps_members hev
    have hevne : ev ≠ [] := by
      obtain ⟨x, hx⟩ := List.exists_mem_of_ne_nil pop hpop
      intro h0
      subst h0
      exact List.not_mem_nil x (hmem x hx)
    obtain ⟨r', hr'mem, hr'max⟩ := get_n_fittest_max ev size d hsize hevne
    have hr'pop' : r' ∈ get_fittest_population ev size d := by
      unfold get_fittest_population
      exact List.mem_dedup.mpr hr'mem
    refine ⟨?_, r', hr'pop', fun x hx => hr'max x (hmem x hx)⟩
    intro h0
    rw [h0] at hr'pop'
    exact List.not_mem_nil r' hr'pop'

theorem foldl_evolve_none (d : DistanceMat) (size : Nat) (f : Nat → Nat → Nat → Draws) :
    ∀ l : List Nat,
      l.foldl (fun acc g => acc.bind fun pop =>
        (evolve pop (1 / 2) (f g)).map fun ev =>
          get_fittest_population ev size d) none = none := by
  intro l
  induction l with
  | nil => rfl
  | cons g gs ih => exact ih

theorem evolve_fold_preserve (d : DistanceMat) (size : Nat) (hsize : 1 ≤ size)
    (f : Nat → Nat → Nat → Draws) :
    ∀ (l : List Nat) (pop final : List Route), pop ≠ [] →
      l.foldl (fun acc g => acc.bind fun pop =>
          (evolve pop (1 / 2) (f g)).map fun ev =>
            get_fittest_population ev size d) (some pop) = some final →
      final ≠ [] ∧ ∃ r ∈ final, ∀ x ∈ pop, fitness x d ≤ fitness r d := by
  intro l
  induction l with
  | nil =>
    intro pop final hpop h
    obtain rfl := Option.some.inj h
    exact ⟨hpop, exists_fitness_max d pop hpop⟩
  | cons g gs ih =>
    intro pop final hpop h
    rw [List.foldl_cons] at h
    rcases hstep : (evolve pop (1 / 2) (f g)).map
        (fun ev => get_fittest_population ev size d) with _ | pop1
    · rw [show ((some pop).bind fun pop =>
          (evolve pop (1 / 2) (f g)).map fun ev =>
            get_fittest_population ev size d) = none from hstep,
        foldl_evolve_none] at h
      exact absurd h (by simp)
    · rw [show ((some pop).bind fun pop =>
          (evolve pop (1 / 2) (f g)).map fun ev =>
            get_fittest_population ev size d) = some pop1 from hstep] at h
      obtain ⟨hpop1ne, r1, hr1mem, hr1max⟩ := evolve_step_preserve d size hsize hpop hstep
      obtain ⟨hfinne, r, hrmem, hrmax⟩ := ih pop1 final hpop1ne h
      exact ⟨hfinne, r, hrmem, fun x hx => (hr1max x hx).trans (hrmax r1 hr1mem)⟩

/-- C3 (confirmed): every population returned by the sequential
`evolve_population` (`n_jobs = 0`, any generations, `size_generation ≥ 1`,
any draws) contains a member whose fitness is no worse than every member of
the non-empty initial population — each generation chains the originals
into the evolved pool and `get_fittest_population` keeps a maximum-fitness
member, so truncation never discards the current best. -/
theorem c3_never_discards_best (initial : List Route)
    (n_generations size_generation : Nat) (d : DistanceMat)
    (O : Nat → Nat → Nat → Nat → Draws) (final : List Route)
    (hne : initial ≠ []) (hsize : 1 ≤ size_generation)
    (hrun : evolve_population initial n_generations size_generation d 0 O
      = some final) :
    ∃ r ∈ final, ∀ r0 ∈ initial, fitness r0 d ≤ fitness r d := by
  unfold evolve_population at hrun
  rw [if_pos rfl] at hrun
  exact (evolve_fold_preserve d size_generation hsize (O 0)
    (List.range n_generations) initial final hne hrun).2

/-- Witness for C3 on a singleton population with zero generations. -/
theorem c3_witness :
    ∃ r ∈ ([⟨[0, 1]⟩] : List Route), ∀ r0 ∈ ([⟨[0, 1]⟩] : List Route),
      fitness r0 ⟨[[0, 1], [1, 0]]⟩ ≤ fitness r ⟨[[0, 1], [1, 0]]⟩ :=
  c3_never_discards_best [⟨[0, 1]⟩] 0 1 ⟨[[0, 1], [1, 0]]⟩
    (fun _ _ _ _ => ⟨0, 0, 1, 0, 0⟩) [⟨[0, 1]⟩] (by simp) (by decide) rfl

end GenTsp
